import Mathlib

/-!
Shallow embedding of the SBLP_Announcements scripts:
`src/curate_mailing_list.py` (the curator pipeline) and
`src/email_sender.py` (the mailer pipeline).

A Python dict is modelled as an ordered association list: insertion of a
fresh key appends at the end, assignment to an existing key updates the
value in place (Python 3.7+ dict semantics).  CSV rows are dicts from
column name to cell string.
-/

namespace SBLP

/-- A contact row: a Python dict from column names to cell values,
modelled as an ordered association list. -/
abbrev Row := List (String × String)

/-- First value bound to key `k` in an association list (in a well-formed
dict, keys are unique, so this is the dict lookup `d[k]`). -/
def alookup {α : Type} (k : String) : List (String × α) → Option α
  | [] => none
  | (k', v) :: d => if k' = k then some v else alookup k d

/-- Python dict assignment `d[k] = v`: update in place if `k` is already a
key, otherwise append the new binding at the end. -/
def dictInsert {α : Type} (k : String) (v : α) : List (String × α) → List (String × α)
  | [] => [(k, v)]
  | (k', v') :: d => if k' = k then (k', v) :: d else (k', v') :: dictInsert k v d

/-- The keys of a dict, in insertion order. -/
def dictKeys {α : Type} (d : List (String × α)) : List String := d.map Prod.fst

/-- `row[k]` for the row dicts of the scripts (total version; every claim
concerns rows that do carry the accessed column). -/
def rowGet (r : Row) (k : String) : String := (alookup k r).getD ""

/-- `remove_duplicates` (curate_mailing_list.py line 34):
`list({row['Email']: row for row in data}.values())` — build a dict keyed
by `Email` over the rows in order, take the values in dict order. -/
def remove_duplicates (data : List Row) : List Row :=
  (data.foldl (fun d row => dictInsert (rowGet row "Email") row d) []).map Prod.snd

/-- The dict built by `remove_duplicates`, before taking `.values()`. -/
def dedupDict (data : List Row) : List (String × Row) :=
  data.foldl (fun d row => dictInsert (rowGet row "Email") row d) []

/-- Python `s.split(sep, 1)` on a character list: the part before the
first occurrence of `sep`, and `some` remainder when `sep` occurs. -/
def pySplitOnce (sep : Char) : List Char → List Char × Option (List Char)
  | [] => ([], none)
  | c :: cs =>
    if c = sep then ([], some cs)
    else
      let r := pySplitOnce sep cs
      (c :: r.1, r.2)

/-- The per-row transform of `split_names` (curate_mailing_list.py lines
38-45): `parts = row['Nome'].split(' ', 1)`, then
`{**row, 'FirstName': parts[0], 'Surname': parts[1] if len(parts) > 1 else ""}`. -/
def split_names_transform (row : Row) : Row :=
  let parts := pySplitOnce ' ' (rowGet row "Nome").data
  dictInsert "Surname"
    (match parts.2 with
     | some s => String.mk s
     | none => "")
    (dictInsert "FirstName" (String.mk parts.1) row)

/-- `split_names` (curate_mailing_list.py line 46): `map(transform, data)`,
an order-preserving one-pass map. -/
def split_names (data : List Row) : List Row := data.map split_names_transform

/-- Python `s.split(sep)` (no maxsplit) on a character list; the result is
always nonempty (`''.split('.') == ['']`). -/
def pySplit (sep : Char) : List Char → List (List Char)
  | [] => [[]]
  | c :: cs =>
    let r := pySplit sep cs
    if c = sep then [] :: r
    else
      match r with
      | [] => [[c]]
      | y :: ys => (c :: y) :: ys

/-- The per-row transform of `find_country_names` (curate_mailing_list.py
lines 50-54): `tld = row['Email'].split('.')[-1]`,
`country = tld if len(tld) == 2 else "br"`, `{**row, 'Country': country}`. -/
def find_country_transform (row : Row) : Row :=
  let tld := String.mk ((pySplit '.' (rowGet row "Email").data).getLastD [])
  let country := if tld.length = 2 then tld else "br"
  dictInsert "Country" country row

/-- `find_country_names` (curate_mailing_list.py line 55): `map(transform, data)`. -/
def find_country_names (data : List Row) : List Row := data.map find_country_transform

/-- The curator's transformation chain (run_pipeline, curate_mailing_list.py
lines 60-63): dedup, then name split, then country derivation. -/
def curate (data : List Row) : List Row :=
  find_country_names (split_names (remove_duplicates data))

/-! ### The mailer (`src/email_sender.py`) -/

/-- The message object assembled by `create_email` (email_sender.py lines
47-55): we keep its observable header fields and body. -/
structure EmailMsg where
  subject : String
  sender : String
  recipient : String
  body : String
deriving DecidableEq

/-- Does `pat` occur at the very start of `l`? -/
def startsWithChars : List Char → List Char → Bool
  | [], _ => true
  | _ :: _, [] => false
  | p :: ps, c :: cs => p = c && startsWithChars ps cs

/-- Python `s.replace(pat, rep)` on character lists: replace leftmost
non-overlapping occurrences in a single pass.  (The scripts call it only
with the nonempty literal token `<FirstName>`; the empty-pattern corner of
Python's `replace` is out of scope.) -/
def replaceChars (pat rep : List Char) : List Char → List Char
  | [] => []
  | c :: cs =>
    if h : pat ≠ [] ∧ startsWithChars pat (c :: cs) = true then
      rep ++ replaceChars pat rep ((c :: cs).drop pat.length)
    else
      c :: replaceChars pat rep cs
termination_by l => l.length
decreasing_by
  · have hp : 0 < pat.length := List.length_pos.mpr h.1
    simp only [List.length_drop, List.length_cons]
    omega
  · simp only [List.length_cons]
    omega

/-- Python `template.replace(pat, rep)` at the string level. -/
def pyReplace (s pat rep : String) : String :=
  String.mk (replaceChars pat.data rep.data s.data)

/-- `create_email` (email_sender.py lines 47-55): fixed subject, operator
sender, recipient from the row's `Email`, body from the template with the
token `<FirstName>` replaced by the row's `FirstName`. -/
def create_email (row : Row) (template sender_email : String) : EmailMsg :=
  { subject := "Chamada de Trabalhos: SBLP 2026"
    sender := sender_email
    recipient := rowGet row "Email"
    body := pyReplace template "<FirstName>" (rowGet row "FirstName") }

/-- `filter_brazilians` (email_sender.py lines 42-45):
`filter(lambda row: row['Country'] == 'br', data)`. -/
def filter_brazilians (data : List Row) : List Row :=
  data.filter (fun row => rowGet row "Country" == "br")

/-- The messages the mailer's run_pipeline (lines 85-92) produces: filter
to the target country, then render one message per remaining row. -/
def mailerMessages (data : List Row) (template sender : String) : List EmailMsg :=
  (filter_brazilians data).map (fun r => create_email r template sender)

/-- Observable events of `send_batch` (email_sender.py lines 58-78). -/
inductive Ev where
  | connected (host : String) (port : Nat)
  | tlsStarted
  | loggedIn (user : String)
  | sent (recipient : String)
  | printedOut (line : String)
  | printedErr (line : String)
  | slept (seconds : Nat)
deriving DecidableEq

/-- The live-send loop (lines 70-74): transmit, print confirmation, pause
2 seconds before the next message. -/
def sendLoop : List EmailMsg → List Ev
  | [] => []
  | m :: ms =>
    Ev.sent m.recipient :: Ev.printedOut ("Sent to: " ++ m.recipient) ::
      Ev.slept 2 :: sendLoop ms

/-- `send_batch` (lines 58-78) as an event trace plus exit code.  `authOk`
abstracts whether `server.login` raises `SMTPAuthenticationError`.  In
dry-run the banner and one summary line per message are printed and no
network activity happens; live mode connects to the relay on port 587,
upgrades to TLS, logs in, then runs the send loop; a failed login prints
"Invalid password" to stderr and exits with code 1 before any send. -/
def send_batch (messages : List EmailMsg) (host user : String)
    (authOk dry_run : Bool) : List Ev × Nat :=
  if dry_run then
    (Ev.printedOut "--- DRY RUN MODE ACTIVE (No emails will be sent) ---" ::
       messages.map (fun m =>
         Ev.printedOut ("TO: " ++ m.recipient ++ " | SUBJ: " ++ m.subject)), 0)
  else if authOk then
    (Ev.connected host 587 :: Ev.tlsStarted :: Ev.loggedIn user ::
       sendLoop messages, 0)
  else
    (Ev.connected host 587 :: Ev.tlsStarted ::
       [Ev.printedErr "Invalid password"], 1)

/-! ### The curator's writer (`print_output_file`) -/

/-- The output schema (curate_mailing_list.py line 22). -/
def fieldnames : List String := ["Nome", "FirstName", "Surname", "Email", "Country"]

/-- csv.DictWriter's per-row conversion under the default
`extrasaction='raise'`: a row holding any key outside `fieldnames` raises
ValueError; otherwise the row's values are emitted in `fieldnames` order
(a missing key becomes the default rest value, the empty cell). -/
def dict_to_list (row : Row) : Except String (List String) :=
  if row.all (fun kv => fieldnames.contains kv.1) then
    Except.ok (fieldnames.map (fun f => rowGet row f))
  else
    Except.error "dict contains fields not in fieldnames"

/-- `writer.writerows` (line 26): emit rows in order until one raises. -/
def writeRows : List Row → List (List String) × Option String
  | [] => ([], none)
  | r :: rs =>
    match dict_to_list r with
    | Except.ok line =>
      let rest := writeRows rs
      (line :: rest.1, rest.2)
    | Except.error e => ([], some e)

/-- `print_output_file` (lines 15-29): the header row is always written
first, then the data rows until an error.  Result: the emitted lines and
the error, if one was raised. -/
def print_output_file (data : List Row) : List (List String) × Option String :=
  (fieldnames :: (writeRows data).1, (writeRows data).2)

/-! ### Specification-level descriptions used to state the claims -/

/-- Keys in order of first occurrence, each kept once (spec wording:
"insertion order of first-seen-then-overwritten key set"). -/
def firstSeen : List String → List String
  | [] => []
  | k :: ks => k :: (firstSeen ks).filter (fun k' => k' ≠ k)

/-- The last row of `data` whose `Email` is `k` (spec wording:
"keep only the last occurrence of each distinct Email"). -/
def lastRowWith (k : String) (data : List Row) : Row :=
  (data.filter (fun r => rowGet r "Email" == k)).getLastD []

/-- Deduplication as the spec words it: one row per distinct `Email`, in
first-seen order of the emails, each holding the last occurrence's values. -/
def dedupSpec (data : List Row) : List Row :=
  (firstSeen (data.map (fun r => rowGet r "Email"))).map (fun k => lastRowWith k data)

/-- Spec: the trailing dot-separated segment of a character list:
everything after the last dot, the whole list when there is no dot. -/
def afterLastDotChars (l : List Char) : List Char :=
  (l.reverse.takeWhile (fun c => c ≠ '.')).reverse

/-- Spec: the trailing dot-separated segment of a string. -/
def afterLastDot (s : String) : String := String.mk (afterLastDotChars s.data)

/-- Spec: country derivation as the spec words it: the tld candidate when
it is exactly 2 characters (case preserved), else the literal fallback. -/
def countrySpec (email : String) : String :=
  if (afterLastDot email).length = 2 then afterLastDot email else "br"

/-- Spec: the part of the name before the first space (the whole name when
there is no space). -/
def firstNameSpec (nome : String) : String :=
  String.mk (nome.data.takeWhile (fun c => c ≠ ' '))

/-- Spec: everything after the first space; empty when there is no space. -/
def surnameSpec (nome : String) : String :=
  if ' ' ∈ nome.data then String.mk ((nome.data.dropWhile (fun c => c ≠ ' ')).tail)
  else ""

/-! ### Association-list lemmas -/

theorem alookup_dictInsert_self {α : Type} (k : String) (v : α)
    (d : List (String × α)) : alookup k (dictInsert k v d) = some v := by
  induction d with
  | nil => simp [alookup, dictInsert]
  | cons p d ih =>
    obtain ⟨k', v'⟩ := p
    by_cases h : k' = k
    · simp [alookup, dictInsert, h]
    · simp [alookup, dictInsert, h, ih]

theorem alookup_dictInsert_ne {α : Type} {k k' : String} (hne : k' ≠ k) (v : α)
    (d : List (String × α)) : alookup k' (dictInsert k v d) = alookup k' d := by
  induction d with
  | nil => simp [alookup, dictInsert, Ne.symm hne]
  | cons p d ih =>
    obtain ⟨k'', v''⟩ := p
    by_cases h : k'' = k
    · subst h
      simp [alookup, dictInsert, Ne.symm hne]
    · by_cases h' : k'' = k'
      · simp [alookup, dictInsert, h, h', hne]
      · simp [alookup, dictInsert, h, h', ih]

theorem dictInsert_self {α : Type} {k : String} {v : α} {d : List (String × α)}
    (h : alookup k d = some v) : dictInsert k v d = d := by
  induction d with
  | nil => simp [alookup] at h
  | cons p d ih =>
    obtain ⟨k', v'⟩ := p
    by_cases hk : k' = k
    · subst hk
      simp [alookup] at h
      simp [dictInsert, h]
    · simp [alookup, hk] at h
      simp [dictInsert, hk, ih h]

/-- Inserting over a dict laid out as `k' ↦ f k'` over a duplicate-free key
list, when the key is present: pointwise value update. -/
theorem dictInsert_map_mem {ks : List String} (hnd : ks.Nodup) {k : String}
    (hk : k ∈ ks) (v : Row) (f : String → Row) :
    dictInsert k v (ks.map fun k' => (k', f k')) =
      ks.map fun k' => (k', if k' = k then v else f k') := by
  induction ks with
  | nil => simp at hk
  | cons a ks ih =>
    by_cases hak : a = k
    · subst hak
      simp only [List.map_cons, dictInsert, if_pos rfl, if_true]
      congr 1
      apply List.map_congr_left
      intro b hb
      have hba : b ≠ a := by
        rintro rfl
        exact (List.nodup_cons.mp hnd).1 hb
      simp [hba]
    · have h : k ∈ ks := by
        rcases List.mem_cons.mp hk with h | h
        · exact absurd h.symm hak
        · exact h
      simp only [List.map_cons, dictInsert, if_neg hak]
      rw [ih (List.nodup_cons.mp hnd).2 h]

/-- Inserting a fresh key into a dict laid out as `k' ↦ f k'`: appended at
the end. -/
theorem dictInsert_map_not_mem {ks : List String} {k : String}
    (hk : k ∉ ks) (v : Row) (f : String → Row) :
    dictInsert k v (ks.map fun k' => (k', f k')) =
      (ks.map fun k' => (k', f k')) ++ [(k, v)] := by
  induction ks with
  | nil => simp [dictInsert]
  | cons a ks ih =>
    have hka : a ≠ k := fun h => hk (h ▸ List.mem_cons_self a ks)
    have hk' : k ∉ ks := fun h => hk (List.mem_cons_of_mem _ h)
    simp only [List.map_cons, dictInsert, if_neg hka, List.cons_append]
    rw [ih hk']

/-! ### firstSeen lemmas -/

theorem mem_firstSeen {l : List String} {k : String} : k ∈ firstSeen l ↔ k ∈ l := by
  induction l with
  | nil => simp [firstSeen]
  | cons a l ih =>
    simp only [firstSeen, List.mem_cons, List.mem_filter]
    constructor
    · rintro (rfl | ⟨h, _⟩)
      · exact Or.inl rfl
      · exact Or.inr (ih.mp h)
    · rintro (rfl | h)
      · exact Or.inl rfl
      · by_cases hk : k = a
        · exact Or.inl hk
        · exact Or.inr ⟨ih.mpr h, by simp [hk]⟩

theorem firstSeen_nodup (l : List String) : (firstSeen l).Nodup := by
  induction l with
  | nil => simp [firstSeen]
  | cons a l ih =>
    simp only [firstSeen, List.nodup_cons]
    refine ⟨fun h => ?_, ih.filter _⟩
    have := (List.mem_filter.mp h).2
    simp at this

theorem firstSeen_cons (k : String) (ks : List String) :
    firstSeen (k :: ks) = k :: (firstSeen ks).filter (fun k' => k' ≠ k) := rfl

theorem firstSeen_concat (l : List String) (k : String) :
    firstSeen (l ++ [k]) = if k ∈ l then firstSeen l else firstSeen l ++ [k] := by
  induction l with
  | nil => simp [firstSeen]
  | cons a l ih =>
    rw [List.cons_append, firstSeen_cons, ih, firstSeen_cons]
    by_cases hk : k ∈ l
    · rw [if_pos hk, if_pos (List.mem_cons_of_mem a hk)]
    · rw [if_neg hk]
      by_cases hka : k = a
      · subst hka
        rw [if_pos (List.mem_cons_self k l), List.filter_append]
        simp
      · have hnm : k ∉ a :: l := by simp [hka, hk]
        rw [if_neg hnm, List.filter_append, List.cons_append]
        simp [hka, Ne.symm hka]

/-! ### lastRowWith lemmas -/

theorem getLastD_concat {α : Type} (l : List α) (r d : α) :
    (l ++ [r]).getLastD d = r := by
  rw [List.getLastD_eq_getLast?, List.getLast?_concat]
  rfl

theorem lastRowWith_concat (k : String) (data : List Row) (r : Row) :
    lastRowWith k (data ++ [r]) =
      if rowGet r "Email" = k then r else lastRowWith k data := by
  unfold lastRowWith
  rw [List.filter_append]
  by_cases h : rowGet r "Email" = k
  · have hf : List.filter (fun r' => rowGet r' "Email" == k) [r] = [r] := by
      simp [List.filter_cons, h]
    rw [hf, getLastD_concat, if_pos h]
  · have hf : List.filter (fun r' => rowGet r' "Email" == k) [r] = [] := by
      simp [List.filter_cons, h]
    rw [hf, List.append_nil, if_neg h]

/-! ### The dedup dict equals its specification -/

theorem dedupDict_eq_spec (data : List Row) :
    dedupDict data =
      (firstSeen (data.map (fun r => rowGet r "Email"))).map
        (fun k => (k, lastRowWith k data)) := by
  induction data using List.reverseRecOn with
  | nil => rfl
  | append_singleton l r ih =>
    have hfold : dedupDict (l ++ [r]) =
        dictInsert (rowGet r "Email") r (dedupDict l) := by
      unfold dedupDict
      rw [List.foldl_append]
      rfl
    have hmap : (l ++ [r]).map (fun r' => rowGet r' "Email") =
        l.map (fun r' => rowGet r' "Email") ++ [rowGet r "Email"] := by simp
    rw [hfold, ih, hmap, firstSeen_concat]
    by_cases hmem : rowGet r "Email" ∈ l.map (fun r' => rowGet r' "Email")
    · rw [if_pos hmem,
        dictInsert_map_mem (firstSeen_nodup _) (mem_firstSeen.mpr hmem)]
      apply List.map_congr_left
      intro k hk
      rw [lastRowWith_concat]
      by_cases hke : k = rowGet r "Email"
      · simp [hke]
      · simp [hke, Ne.symm hke]
    · rw [if_neg hmem,
        dictInsert_map_not_mem (fun h => hmem (mem_firstSeen.mp h))]
      rw [List.map_append]
      congr 1
      · apply List.map_congr_left
        intro k hk
        rw [lastRowWith_concat]
        have hke : rowGet r "Email" ≠ k := by
          rintro rfl
          exact hmem (mem_firstSeen.mp hk)
        simp [hke]
      · simp [lastRowWith_concat]

/-- C1: `remove_duplicates` returns exactly one row per distinct `Email`
value, that row holding the field values of the last occurrence of that
`Email`, and the output rows appear in first-seen order of the emails. -/
theorem remove_duplicates_eq_dedupSpec (data : List Row) :
    remove_duplicates data = dedupSpec data := by
  unfold remove_duplicates dedupSpec
  have := dedupDict_eq_spec data
  unfold dedupDict at this
  rw [this, List.map_map]
  rfl

/-! ### pySplit lemmas: the code tld equals the spec tld -/

theorem pySplit_ne_nil (sep : Char) (l : List Char) : pySplit sep l ≠ [] := by
  cases l with
  | nil => simp [pySplit]
  | cons c cs =>
    simp only [pySplit]
    by_cases hc : c = sep
    · simp [hc]
    · simp only [if_neg hc]
      rcases h : pySplit sep cs with _ | ⟨y, ys⟩ <;> simp

theorem pySplit_append_sep (sep : Char) (xs ys : List Char) :
    pySplit sep (xs ++ sep :: ys) = pySplit sep xs ++ pySplit sep ys := by
  induction xs with
  | nil => simp [pySplit]
  | cons c cs ih =>
    by_cases hc : c = sep
    · subst hc
      simp [pySplit, ih]
    · obtain ⟨y, t, hyt⟩ := List.exists_cons_of_ne_nil (pySplit_ne_nil sep cs)
      simp [pySplit, hc, ih, hyt]

theorem pySplit_no_sep {sep : Char} {l : List Char} (h : sep ∉ l) :
    pySplit sep l = [l] := by
  induction l with
  | nil => rfl
  | cons c cs ih =>
    have hc : c ≠ sep := fun hc => h (hc ▸ List.mem_cons_self c cs)
    have hcs : sep ∉ cs := fun hm => h (List.mem_cons_of_mem c hm)
    simp [pySplit, hc, ih hcs]

theorem getLastD_append {α : Type} (A : List α) {B : List α} (hB : B ≠ [])
    (d : α) : (A ++ B).getLastD d = B.getLastD d := by
  rw [List.getLastD_eq_getLast?, List.getLastD_eq_getLast?,
    List.getLast?_append_of_ne_nil A hB]

/-- The suffix after dropping the longest dotless run starts with the dot,
when the list has a dot at all. -/
theorem dropWhile_mem_dot {l : List Char} (h : ('.' : Char) ∈ l) :
    ∃ rest, l.dropWhile (fun c => c ≠ '.') = '.' :: rest := by
  induction l with
  | nil => simp at h
  | cons c cs ih =>
    by_cases hc : c = '.'
    · subst hc
      refine ⟨cs, ?_⟩
      simp [List.dropWhile_cons]
    · have hmem : ('.' : Char) ∈ cs := by
        rcases List.mem_cons.mp h with h' | h'
        · exact absurd h'.symm hc
        · exact h'
      obtain ⟨rest, hrest⟩ := ih hmem
      refine ⟨rest, ?_⟩
      rw [List.dropWhile_cons, if_pos (by simp [hc]), hrest]

/-- Decompose a list that contains a dot at its last dot. -/
theorem last_dot_decomp {l : List Char} (h : ('.' : Char) ∈ l) :
    ∃ u, l = u ++ '.' :: afterLastDotChars l := by
  have hrev : ('.' : Char) ∈ l.reverse := List.mem_reverse.mpr h
  obtain ⟨rest, hrest⟩ := dropWhile_mem_dot hrev
  refine ⟨rest.reverse, ?_⟩
  have hsplit : l.reverse.takeWhile (fun c => c ≠ '.') ++ ('.' :: rest) =
      l.reverse := by
    rw [← hrest]
    exact List.takeWhile_append_dropWhile _ _
  calc l = l.reverse.reverse := (List.reverse_reverse l).symm
    _ = (l.reverse.takeWhile (fun c => c ≠ '.') ++ ('.' :: rest)).reverse := by
          rw [hsplit]
    _ = rest.reverse ++ '.' :: afterLastDotChars l := by
          rw [List.reverse_append]
          simp [afterLastDotChars]

theorem no_dot_afterLastDotChars {l : List Char} (h : ('.' : Char) ∉ l) :
    afterLastDotChars l = l := by
  unfold afterLastDotChars
  rw [List.takeWhile_eq_self_iff.mpr, List.reverse_reverse]
  intro c hc
  have : c ∈ l := List.mem_reverse.mp hc
  simp only [decide_eq_true_eq]
  rintro rfl
  exact h this

theorem not_dot_mem_afterLastDotChars (l : List Char) :
    ('.' : Char) ∉ afterLastDotChars l := by
  unfold afterLastDotChars
  intro hmem
  have := List.mem_takeWhile_imp (List.mem_reverse.mp hmem)
  simp at this

/-- The tld computed by the code (`split('.')[-1]`) is the spec's trailing
dot segment. -/
theorem pySplit_getLastD_eq (l : List Char) :
    (pySplit '.' l).getLastD [] = afterLastDotChars l := by
  by_cases h : ('.' : Char) ∈ l
  · obtain ⟨u, hu⟩ := last_dot_decomp h
    conv_lhs => rw [hu]
    rw [pySplit_append_sep, getLastD_append _ (pySplit_ne_nil _ _),
      pySplit_no_sep (not_dot_mem_afterLastDotChars l)]
    rfl
  · rw [pySplit_no_sep h, no_dot_afterLastDotChars h]
    rfl

theorem string_mk_data (s : String) : String.mk s.data = s := rfl

theorem rowGet_dictInsert_self (r : Row) (k : String) (v : String) :
    rowGet (dictInsert k v r) k = v := by
  simp [rowGet, alookup_dictInsert_self]

theorem rowGet_dictInsert_ne {k k' : String} (h : k' ≠ k) (r : Row) (v : String) :
    rowGet (dictInsert k v r) k' = rowGet r k' := by
  simp [rowGet, alookup_dictInsert_ne h]

/-- C2: `find_country_names` sets `Country` to the last dot-separated
segment of the email when that segment has exactly 2 characters (case
preserved) and to the literal fallback "br" otherwise; when the email
contains no dot, the whole string is the tld candidate. -/
theorem find_country_names_spec (row : Row) :
    rowGet (find_country_transform row) "Country" =
      countrySpec (rowGet row "Email") ∧
    (('.' : Char) ∉ (rowGet row "Email").data →
      afterLastDot (rowGet row "Email") = rowGet row "Email") := by
  have htld : String.mk ((pySplit '.' (rowGet row "Email").data).getLastD []) =
      afterLastDot (rowGet row "Email") := by
    rw [pySplit_getLastD_eq]
    rfl
  constructor
  · simp only [find_country_transform]
    rw [rowGet_dictInsert_self, htld]
    rfl
  · intro h
    unfold afterLastDot
    rw [no_dot_afterLastDotChars h, string_mk_data]

theorem pySplitOnce_eq (sep : Char) (l : List Char) :
    pySplitOnce sep l =
      (l.takeWhile (fun c => c ≠ sep),
       if sep ∈ l then some ((l.dropWhile (fun c => c ≠ sep)).tail) else none) := by
  induction l with
  | nil => simp [pySplitOnce]
  | cons c cs ih =>
    by_cases hc : c = sep
    · subst hc
      simp [pySplitOnce, List.takeWhile_cons, List.dropWhile_cons]
    · simp [pySplitOnce, ih, List.takeWhile_cons, List.dropWhile_cons, hc,
        Ne.symm hc]

/-- C5: `split_names` splits `Nome` on the first space only: `FirstName`
is the part before the first space, `Surname` everything after it; with no
space, `FirstName` is the whole `Nome` and `Surname` is empty. -/
theorem split_names_spec (row : Row) :
    rowGet (split_names_transform row) "FirstName" =
      firstNameSpec (rowGet row "Nome") ∧
    rowGet (split_names_transform row) "Surname" =
      surnameSpec (rowGet row "Nome") ∧
    ((' ' : Char) ∉ (rowGet row "Nome").data →
      rowGet (split_names_transform row) "FirstName" = rowGet row "Nome" ∧
      rowGet (split_names_transform row) "Surname" = "") := by
  have hfn : rowGet (split_names_transform row) "FirstName" =
      firstNameSpec (rowGet row "Nome") := by
    simp only [split_names_transform]
    rw [rowGet_dictInsert_ne (by decide), rowGet_dictInsert_self,
      pySplitOnce_eq]
    rfl
  have hsn : rowGet (split_names_transform row) "Surname" =
      surnameSpec (rowGet row "Nome") := by
    simp only [split_names_transform]
    rw [rowGet_dictInsert_self, pySplitOnce_eq]
    unfold surnameSpec
    by_cases hm : (' ' : Char) ∈ (rowGet row "Nome").data
    · rw [if_pos hm, if_pos hm]
    · rw [if_neg hm, if_neg hm]
  refine ⟨hfn, hsn, fun h => ⟨?_, ?_⟩⟩
  · rw [hfn]
    unfold firstNameSpec
    rw [List.takeWhile_eq_self_iff.mpr, string_mk_data]
    intro c hc
    simp only [decide_eq_true_eq]
    rintro rfl
    exact h hc
  · rw [hsn]
    unfold surnameSpec
    rw [if_neg h]

/-- Witness for C2 at `Email = "x@foo"`: 3-character dotless candidate,
fallback "br"; the tld candidate is the whole string. -/
theorem find_country_names_spec_witness :
    rowGet (find_country_transform [("Email", "x@foo")]) "Country" = "br" ∧
    afterLastDot "x@foo" = "x@foo" := by
  have h := find_country_names_spec [("Email", "x@foo")]
  exact ⟨h.1.trans (by decide), h.2 (by decide)⟩

/-- Witness for C5 at `Nome = "Ana"` (no space). -/
theorem split_names_spec_witness :
    rowGet (split_names_transform [("Nome", "Ana")]) "FirstName" =
      rowGet [("Nome", "Ana")] "Nome" ∧
    rowGet (split_names_transform [("Nome", "Ana")]) "Surname" = "" :=
  (split_names_spec [("Nome", "Ana")]).2.2 (by decide)

theorem filter_dictInsert {k : String} (v : String) (d : Row)
    {p : String × String → Bool} (hp : ∀ w : String, p (k, w) = false) :
    (dictInsert k v d).filter p = d.filter p := by
  induction d with
  | nil => simp [dictInsert, List.filter_cons, hp]
  | cons kv d ih =>
    obtain ⟨k', v'⟩ := kv
    by_cases h : k' = k
    · subst h
      simp [dictInsert, List.filter_cons, hp]
    · simp only [dictInsert, if_neg h, List.filter_cons]
      cases hpkv : p (k', v') <;> simp [hpkv, ih]

theorem rowGet_split_names_transform {k : String} (h1 : k ≠ "FirstName")
    (h2 : k ≠ "Surname") (r : Row) :
    rowGet (split_names_transform r) k = rowGet r k := by
  simp only [split_names_transform]
  rw [rowGet_dictInsert_ne h2, rowGet_dictInsert_ne h1]

theorem rowGet_find_country_transform {k : String} (h : k ≠ "Country") (r : Row) :
    rowGet (find_country_transform r) k = rowGet r k := by
  simp only [find_country_transform]
  rw [rowGet_dictInsert_ne h]

/-- C10: `split_names` only touches `FirstName` and `Surname`,
`find_country_names` only touches `Country`; every other key-value pair of
a row (its value by `rowGet` and its position, captured by the filtered
sublist) is unchanged, and both transforms preserve the number of rows. -/
theorem transforms_frame (row : Row) (k : String) (data : List Row) :
    (k ≠ "FirstName" → k ≠ "Surname" →
      rowGet (split_names_transform row) k = rowGet row k) ∧
    (k ≠ "Country" →
      rowGet (find_country_transform row) k = rowGet row k) ∧
    (split_names_transform row).filter
        (fun kv => ¬(kv.1 = "FirstName" ∨ kv.1 = "Surname")) =
      row.filter (fun kv => ¬(kv.1 = "FirstName" ∨ kv.1 = "Surname")) ∧
    (find_country_transform row).filter (fun kv => kv.1 ≠ "Country") =
      row.filter (fun kv => kv.1 ≠ "Country") ∧
    (split_names data).length = data.length ∧
    (find_country_names data).length = data.length := by
  refine ⟨fun h1 h2 => rowGet_split_names_transform h1 h2 row,
    fun h => rowGet_find_country_transform h row, ?_, ?_, ?_, ?_⟩
  · simp only [split_names_transform]
    rw [filter_dictInsert _ _ (fun w => by simp),
      filter_dictInsert _ _ (fun w => by simp)]
  · simp only [find_country_transform]
    rw [filter_dictInsert _ _ (fun w => by simp)]
  · simp [split_names]
  · simp [find_country_names]

/-- Witness for C10 at a concrete row and the untouched key `Email`. -/
theorem transforms_frame_witness :
    rowGet (split_names_transform [("Nome", "Ana Lima"), ("Email", "ana@x.br")])
        "Email" =
      rowGet [("Nome", "Ana Lima"), ("Email", "ana@x.br")] "Email" ∧
    rowGet (find_country_transform [("Nome", "Ana Lima"), ("Email", "ana@x.br")])
        "Email" =
      rowGet [("Nome", "Ana Lima"), ("Email", "ana@x.br")] "Email" := by
  have h := transforms_frame [("Nome", "Ana Lima"), ("Email", "ana@x.br")] "Email"
    [[("Nome", "Ana Lima"), ("Email", "ana@x.br")]]
  exact ⟨h.1 (by decide) (by decide), h.2.1 (by decide)⟩

/-! ### Idempotence of the curation chain -/

theorem remove_duplicates_eq_dedupDict (data : List Row) :
    remove_duplicates data = (dedupDict data).map Prod.snd := rfl

theorem dedupDict_concat (data : List Row) (r : Row) :
    dedupDict (data ++ [r]) = dictInsert (rowGet r "Email") r (dedupDict data) := by
  unfold dedupDict
  rw [List.foldl_append]
  rfl

theorem getLastD_mem {α : Type} {l : List α} (h : l ≠ []) (d : α) :
    l.getLastD d ∈ l := by
  rw [List.getLastD_eq_getLast?]
  cases hl : l.getLast? with
  | none => exact absurd (List.getLast?_eq_none_iff.mp hl) h
  | some x =>
    obtain ⟨hne, hx⟩ := List.mem_getLast?_eq_getLast (Option.mem_def.mpr hl)
    simp only [Option.getD_some]
    rw [hx]
    exact List.getLast_mem hne

theorem rowGet_lastRowWith {data : List Row} {k : String}
    (h : k ∈ data.map (fun r => rowGet r "Email")) :
    rowGet (lastRowWith k data) "Email" = k := by
  obtain ⟨r, hr, he⟩ := List.mem_map.mp h
  have hne : data.filter (fun r' => rowGet r' "Email" == k) ≠ [] :=
    List.ne_nil_of_mem (List.mem_filter.mpr ⟨hr, by simp [he]⟩)
  have hmem := getLastD_mem hne ([] : Row)
  have hp := List.of_mem_filter hmem
  unfold lastRowWith
  exact eq_of_beq hp

theorem map_email_remove_duplicates (data : List Row) :
    (remove_duplicates data).map (fun r => rowGet r "Email") =
      firstSeen (data.map (fun r => rowGet r "Email")) := by
  rw [remove_duplicates_eq_dedupDict, dedupDict_eq_spec, List.map_map,
    List.map_map]
  refine (List.map_congr_left ?_).trans (List.map_id _)
  intro k hk
  exact rowGet_lastRowWith (mem_firstSeen.mp hk)

theorem remove_duplicates_of_nodup {data : List Row}
    (h : (data.map (fun r => rowGet r "Email")).Nodup) :
    remove_duplicates data = data := by
  induction data using List.reverseRecOn with
  | nil => rfl
  | append_singleton l r ih =>
    have hmap : (l ++ [r]).map (fun r' => rowGet r' "Email") =
        l.map (fun r' => rowGet r' "Email") ++ [rowGet r "Email"] := by simp
    rw [hmap, List.nodup_append] at h
    obtain ⟨hl, _, hdisj⟩ := h
    have hnotin : rowGet r "Email" ∉ l.map (fun r' => rowGet r' "Email") :=
      fun hmem => hdisj hmem (List.mem_singleton.mpr rfl)
    rw [remove_duplicates_eq_dedupDict, dedupDict_concat, dedupDict_eq_spec,
      dictInsert_map_not_mem (fun hm => hnotin (mem_firstSeen.mp hm)),
      List.map_append, ← dedupDict_eq_spec, ← remove_duplicates_eq_dedupDict,
      ih hl]
    rfl

theorem rowGet_curate_transform_email (r : Row) :
    rowGet (find_country_transform (split_names_transform r)) "Email" =
      rowGet r "Email" := by
  rw [rowGet_find_country_transform (by decide),
    rowGet_split_names_transform (by decide) (by decide)]

theorem rowGet_split_names_transform_FirstName (r : Row) :
    alookup "FirstName" (split_names_transform r) =
      some (String.mk (pySplitOnce ' ' (rowGet r "Nome").data).1) := by
  simp only [split_names_transform]
  rw [alookup_dictInsert_ne (by decide), alookup_dictInsert_self]

theorem rowGet_split_names_transform_Surname (r : Row) :
    alookup "Surname" (split_names_transform r) =
      some (match (pySplitOnce ' ' (rowGet r "Nome").data).2 with
            | some s => String.mk s
            | none => "") := by
  simp only [split_names_transform]
  rw [alookup_dictInsert_self]

/-- Applying the per-row curation transform twice is the same as applying
it once: `FirstName`, `Surname` and `Country` recompute to the same values
and are re-inserted in place. -/
theorem curate_transform_idem (r : Row) :
    find_country_transform (split_names_transform
      (find_country_transform (split_names_transform r))) =
    find_country_transform (split_names_transform r) := by
  set r2 := find_country_transform (split_names_transform r) with hr2
  have hNome : rowGet r2 "Nome" = rowGet r "Nome" := by
    rw [hr2, rowGet_find_country_transform (by decide),
      rowGet_split_names_transform (by decide) (by decide)]
  have hEmail : rowGet r2 "Email" = rowGet r "Email" := by
    rw [hr2, rowGet_curate_transform_email]
  have hFn : alookup "FirstName" r2 =
      some (String.mk (pySplitOnce ' ' (rowGet r "Nome").data).1) := by
    rw [hr2]
    simp only [find_country_transform]
    rw [alookup_dictInsert_ne (by decide), rowGet_split_names_transform_FirstName]
  have hSn : alookup "Surname" r2 =
      some (match (pySplitOnce ' ' (rowGet r "Nome").data).2 with
            | some s => String.mk s
            | none => "") := by
    rw [hr2]
    simp only [find_country_transform]
    rw [alookup_dictInsert_ne (by decide), rowGet_split_names_transform_Surname]
  have hsplit2 : split_names_transform r2 = r2 := by
    simp only [split_names_transform]
    rw [hNome, dictInsert_self hFn, dictInsert_self hSn]
  have hCn : alookup "Country" r2 =
      some (let tld := String.mk
              ((pySplit '.' (rowGet r "Email").data).getLastD [])
            if tld.length = 2 then tld else "br") := by
    rw [hr2]
    simp only [find_country_transform]
    rw [rowGet_split_names_transform (show "Email" ≠ "FirstName" by decide)
        (show "Email" ≠ "Surname" by decide),
      alookup_dictInsert_self]
  rw [hsplit2]
  simp only [find_country_transform]
  rw [hEmail, dictInsert_self hCn]

/-- C4: the curation transformation is idempotent: a second pass of
deduplication, name splitting and country derivation over curated rows
returns the identical list of rows. -/
theorem curate_idempotent (data : List Row) :
    curate (curate data) = curate data := by
  have hmm : ∀ X : List Row, find_country_names (split_names X) =
      X.map (fun r => find_country_transform (split_names_transform r)) := by
    intro X
    unfold find_country_names split_names
    rw [List.map_map]
    rfl
  have hemails : (curate data).map (fun r => rowGet r "Email") =
      firstSeen (data.map (fun r => rowGet r "Email")) := by
    have h1 : (curate data).map (fun r => rowGet r "Email") =
        (remove_duplicates data).map (fun r => rowGet r "Email") := by
      unfold curate
      rw [hmm, List.map_map]
      exact List.map_congr_left (fun r _ => rowGet_curate_transform_email r)
    rw [h1, map_email_remove_duplicates]
  have hnd : ((curate data).map (fun r => rowGet r "Email")).Nodup := by
    rw [hemails]
    exact firstSeen_nodup _
  show find_country_names (split_names (remove_duplicates (curate data))) =
    curate data
  rw [remove_duplicates_of_nodup hnd, hmm]
  have hg : curate data = (remove_duplicates data).map
      (fun r => find_country_transform (split_names_transform r)) := by
    unfold curate
    exact hmm _
  rw [hg, List.map_map]
  exact List.map_congr_left (fun r _ => curate_transform_idem r)

/-! ### Template substitution lemmas -/

theorem string_data_append (a b : String) : (a ++ b).data = a.data ++ b.data := rfl

theorem startsWithChars_ne_head {ps l : List Char} {c : Char} (hc : c ≠ '<') :
    startsWithChars ('<' :: ps) (c :: l) = false := by
  simp [startsWithChars, Ne.symm hc]

theorem startsWithChars_self_append (pat t : List Char) :
    startsWithChars pat (pat ++ t) = true := by
  induction pat with
  | nil => rfl
  | cons p ps ih => simp [startsWithChars, ih]

theorem replaceChars_not_mem {ps rep : List Char} {l : List Char}
    (h : ('<' : Char) ∉ l) : replaceChars ('<' :: ps) rep l = l := by
  induction l with
  | nil => rw [replaceChars]
  | cons c cs ih =>
    have hc : c ≠ '<' := fun hcc => h (hcc ▸ List.mem_cons_self c cs)
    have hcs : ('<' : Char) ∉ cs := fun hm => h (List.mem_cons_of_mem c hm)
    rw [replaceChars, dif_neg, ih hcs]
    rintro ⟨-, hsw⟩
    rw [startsWithChars_ne_head hc] at hsw
    exact Bool.false_ne_true hsw

theorem replaceChars_head {pat : List Char} (hp : pat ≠ []) (rep t : List Char) :
    replaceChars pat rep (pat ++ t) = rep ++ replaceChars pat rep t := by
  obtain ⟨p, ps, rfl⟩ := List.exists_cons_of_ne_nil hp
  rw [List.cons_append, replaceChars, dif_pos]
  · congr 1
    rw [show (p :: (ps ++ t)).drop (p :: ps).length = t from by
      rw [List.length_cons, List.drop_succ_cons, List.drop_left]]
  · refine ⟨by simp, ?_⟩
    rw [← List.cons_append]
    exact startsWithChars_self_append (p :: ps) t

theorem replaceChars_append_left {ps rep u : List Char}
    (h : ('<' : Char) ∉ u) (t : List Char) :
    replaceChars ('<' :: ps) rep (u ++ t) =
      u ++ replaceChars ('<' :: ps) rep t := by
  induction u with
  | nil => rfl
  | cons c cs ih =>
    have hc : c ≠ '<' := fun hcc => h (hcc ▸ List.mem_cons_self c cs)
    have hcs : ('<' : Char) ∉ cs := fun hm => h (List.mem_cons_of_mem c hm)
    rw [List.cons_append, replaceChars, dif_neg, ih hcs, List.cons_append]
    rintro ⟨-, hsw⟩
    rw [startsWithChars_ne_head hc] at hsw
    exact Bool.false_ne_true hsw

/-- C6: `create_email` produces a message whose To is the row's Email,
whose body is the template with every literal occurrence of the token
`<FirstName>` replaced by the row's FirstName, and whose Subject and From
are constants (the fixed literal and the operator-supplied sender). -/
theorem create_email_spec (row : Row) (u v sender : String)
    (hu : ('<' : Char) ∉ u.data) :
    (create_email row (u ++ "<FirstName>" ++ v) sender).subject =
      "Chamada de Trabalhos: SBLP 2026" ∧
    (create_email row (u ++ "<FirstName>" ++ v) sender).sender = sender ∧
    (create_email row (u ++ "<FirstName>" ++ v) sender).recipient =
      rowGet row "Email" ∧
    (create_email row (u ++ "<FirstName>" ++ v) sender).body =
      (u ++ rowGet row "FirstName") ++
        pyReplace v "<FirstName>" (rowGet row "FirstName") ∧
    (('<' : Char) ∉ v.data →
      (create_email row (u ++ "<FirstName>" ++ v) sender).body =
        (u ++ rowGet row "FirstName") ++ v) := by
  have htok : ("<FirstName>" : String).data = '<' :: ("FirstName>" : String).data :=
    rfl
  have hlist : replaceChars ("<FirstName>" : String).data
      (rowGet row "FirstName").data ((u ++ "<FirstName>" ++ v).data) =
      (u.data ++ (rowGet row "FirstName").data) ++
        replaceChars ("<FirstName>" : String).data
          (rowGet row "FirstName").data v.data := by
    rw [string_data_append, string_data_append, List.append_assoc, htok,
      replaceChars_append_left hu, ← htok,
      replaceChars_head (by rw [htok]; simp) _ v.data, List.append_assoc]
  have hbody : (create_email row (u ++ "<FirstName>" ++ v) sender).body =
      (u ++ rowGet row "FirstName") ++
        pyReplace v "<FirstName>" (rowGet row "FirstName") :=
    congrArg String.mk hlist
  refine ⟨rfl, rfl, rfl, hbody, fun hv => ?_⟩
  rw [hbody]
  have hvfix : pyReplace v "<FirstName>" (rowGet row "FirstName") = v := by
    unfold pyReplace
    rw [htok, replaceChars_not_mem hv, string_mk_data]
  rw [hvfix]

/-- Witness for C6: the spec's example template with `FirstName = "Ana"`. -/
theorem create_email_spec_witness :
    (create_email [("FirstName", "Ana"), ("Email", "ana@x.br")]
        ("Hello " ++ "<FirstName>" ++ "!") "org@sblp.br").body = "Hello Ana!" ∧
    (create_email [("FirstName", "Ana"), ("Email", "ana@x.br")]
        ("Hello " ++ "<FirstName>" ++ "!") "org@sblp.br").recipient = "ana@x.br" := by
  have h := create_email_spec [("FirstName", "Ana"), ("Email", "ana@x.br")]
    "Hello " "!" "org@sblp.br" (by decide)
  have h5 := h.2.2.2.2 (by decide)
  have h3 := h.2.2.1
  constructor
  · rw [h5]
    decide
  · rw [h3]
    decide

/-! ### Mailer filtering and the send step -/

/-- C7: `filter_brazilians` yields exactly the rows whose `Country` equals
the fixed target code "br", in their original order; a row with any other
`Country` contributes no message to `send_batch` in either dry-run or live
mode. -/
theorem filter_brazilians_spec (data : List Row) (t s : String) :
    (filter_brazilians data).Sublist data ∧
    (∀ r, r ∈ filter_brazilians data ↔ r ∈ data ∧ rowGet r "Country" = "br") ∧
    (∀ (xs ys : List Row) (r : Row), rowGet r "Country" ≠ "br" →
      ∀ (host u : String) (authOk dry : Bool),
        send_batch (mailerMessages (xs ++ r :: ys) t s) host u authOk dry =
          send_batch (mailerMessages (xs ++ ys) t s) host u authOk dry) := by
  refine ⟨List.filter_sublist _, fun r => ?_, ?_⟩
  · simp [filter_brazilians, List.mem_filter]
  · intro xs ys r hr host u authOk dry
    have hfilter : filter_brazilians (xs ++ r :: ys) =
        filter_brazilians (xs ++ ys) := by
      unfold filter_brazilians
      rw [List.filter_append, List.filter_append, List.filter_cons,
        if_neg (by simp [hr])]
    unfold mailerMessages
    rw [hfilter]

/-- Witness for C7: the row with `Country = "uk"` is excluded and changes
nothing about the batch. -/
theorem filter_brazilians_spec_witness :
    ([("Country", "uk"), ("Email", "u@x.uk")] ∈
        filter_brazilians [[("Country", "br"), ("Email", "a@x.br")],
          [("Country", "uk"), ("Email", "u@x.uk")]] ↔
      [("Country", "uk"), ("Email", "u@x.uk")] ∈
          [[("Country", "br"), ("Email", "a@x.br")],
            [("Country", "uk"), ("Email", "u@x.uk")]] ∧
        rowGet [("Country", "uk"), ("Email", "u@x.uk")] "Country" = "br") ∧
    send_batch (mailerMessages [[("Country", "uk"), ("Email", "u@x.uk")]] "T" "S")
        "h" "u" true true =
      send_batch (mailerMessages [] "T" "S") "h" "u" true true := by
  have h := filter_brazilians_spec
    [[("Country", "br"), ("Email", "a@x.br")],
     [("Country", "uk"), ("Email", "u@x.uk")]] "T" "S"
  have h2 := filter_brazilians_spec ([] : List Row) "T" "S"
  exact ⟨h.2.1 [("Country", "uk"), ("Email", "u@x.uk")],
    h2.2.2 [] [] [("Country", "uk"), ("Email", "u@x.uk")] (by decide) "h" "u"
      true true⟩

/-- C8: when the SMTP login fails in live mode, `send_batch` prints the
diagnostic "Invalid password" on stderr, exits with code 1, and transmits
no message at all (the login precedes every send). -/
theorem send_batch_auth_failure (messages : List EmailMsg) (host user : String) :
    (send_batch messages host user false false).2 = 1 ∧
    Ev.printedErr "Invalid password" ∈ (send_batch messages host user false false).1 ∧
    ∀ r, Ev.sent r ∉ (send_batch messages host user false false).1 := by
  refine ⟨rfl, by simp [send_batch], fun r => ?_⟩
  simp [send_batch]

/-- C9: in dry-run mode `send_batch` prints the recipient and subject of
every message, never opens a connection, transmits nothing, sleeps never,
and exits with code 0. -/
theorem send_batch_dry_run (messages : List EmailMsg) (host user : String)
    (authOk : Bool) :
    (send_batch messages host user authOk true).2 = 0 ∧
    (∀ m ∈ messages,
      Ev.printedOut ("TO: " ++ m.recipient ++ " | SUBJ: " ++ m.subject) ∈
        (send_batch messages host user authOk true).1) ∧
    (∀ h p, Ev.connected h p ∉ (send_batch messages host user authOk true).1) ∧
    (∀ r, Ev.sent r ∉ (send_batch messages host user authOk true).1) ∧
    (∀ n, Ev.slept n ∉ (send_batch messages host user authOk true).1) := by
  refine ⟨rfl, fun m hm => ?_, fun h p => ?_, fun r => ?_, fun n => ?_⟩
  · simp only [send_batch, if_pos]
    exact List.mem_cons_of_mem _ (List.mem_map_of_mem _ hm)
  · simp [send_batch]
  · simp [send_batch]
  · simp [send_batch]

/-! ### The writer and extra columns -/

theorem mem_dictInsert {α : Type} {kv : String × α} {k : String} {v : α}
    {d : List (String × α)} (h : kv ∈ dictInsert k v d) :
    kv = (k, v) ∨ kv ∈ d := by
  induction d with
  | nil => simpa [dictInsert] using h
  | cons p d ih =>
    obtain ⟨k', v'⟩ := p
    by_cases hk : k' = k
    · subst hk
      rw [dictInsert, if_pos rfl] at h
      rcases List.mem_cons.mp h with h' | h'
      · exact Or.inl h'
      · exact Or.inr (List.mem_cons_of_mem _ h')
    · rw [dictInsert, if_neg hk] at h
      rcases List.mem_cons.mp h with h' | h'
      · exact Or.inr (h' ▸ List.mem_cons_self _ _)
      · rcases ih h' with h'' | h''
        · exact Or.inl h''
        · exact Or.inr (List.mem_cons_of_mem _ h'')

theorem mem_remove_duplicates {data : List Row} {r : Row}
    (h : r ∈ remove_duplicates data) : r ∈ data := by
  rw [remove_duplicates_eq_dedupDict, dedupDict_eq_spec, List.map_map] at h
  obtain ⟨k, hk, hr⟩ := List.mem_map.mp h
  have hkm : k ∈ data.map (fun r' => rowGet r' "Email") := mem_firstSeen.mp hk
  obtain ⟨r0, hr0, he0⟩ := List.mem_map.mp hkm
  have hne : data.filter (fun r' => rowGet r' "Email" == k) ≠ [] :=
    List.ne_nil_of_mem (List.mem_filter.mpr ⟨hr0, by simp [he0]⟩)
  have hmem := getLastD_mem hne ([] : Row)
  rw [← hr]
  exact List.mem_of_mem_filter hmem

theorem curate_eq_map (data : List Row) :
    curate data = (remove_duplicates data).map
      (fun r => find_country_transform (split_names_transform r)) := by
  unfold curate find_country_names split_names
  rw [List.map_map]
  rfl

/-- Rows produced by curation over inputs holding only the required `Nome`
and `Email` columns carry only schema columns. -/
theorem curate_keys {data : List Row}
    (h : ∀ r ∈ data, ∀ kv ∈ r, kv.1 = "Nome" ∨ kv.1 = "Email") :
    ∀ r2 ∈ curate data, ∀ kv ∈ r2, fieldnames.contains kv.1 = true := by
  intro r2 hr2 kv hkv
  rw [curate_eq_map] at hr2
  obtain ⟨r, hr, rfl⟩ := List.mem_map.mp hr2
  have hrdata : r ∈ data := mem_remove_duplicates hr
  simp only [find_country_transform] at hkv
  rcases mem_dictInsert hkv with h1 | hkv' 
  · rw [h1]
    rfl
  · simp only [split_names_transform] at hkv' 
    rcases mem_dictInsert hkv' with h2 | hkv'' 
    · rw [h2]
      rfl
    · rcases mem_dictInsert hkv'' with h3 | hkv3
      · rw [h3]
        rfl
      · rcases h r hrdata kv hkv3 with h4 | h4 <;> rw [h4] <;> rfl

theorem writeRows_ok {rows : List Row}
    (h : ∀ r ∈ rows, ∀ kv ∈ r, fieldnames.contains kv.1 = true) :
    writeRows rows =
      (rows.map (fun r => fieldnames.map (fun f => rowGet r f)), none) := by
  induction rows with
  | nil => rfl
  | cons r rs ih =>
    have hr : dict_to_list r =
        Except.ok (fieldnames.map (fun f => rowGet r f)) := by
      unfold dict_to_list
      rw [if_pos]
      rw [List.all_eq_true]
      exact fun kv hkv => h r (List.mem_cons_self r rs) kv hkv
    have hrs := ih (fun r' hr' kv hkv => h r' (List.mem_cons_of_mem _ hr') kv hkv)
    simp [writeRows, hr, hrs]

/-- C3 counterexample: a single extra input column ("Afiliacao") survives
every transform and makes the write step raise (csv.DictWriter's default
`extrasaction='raise'`) instead of being dropped. -/
theorem print_output_extra_column_raises :
    (print_output_file (curate
      [[("Nome", "Ana Lima"), ("Email", "ana@x.br"), ("Afiliacao", "UFMG")]])).2 =
      some "dict contains fields not in fieldnames" := by
  rfl

/-- C3 amended: extra columns are carried through the transforms and make
the write step fail; when every input row holds only the required `Nome`
and `Email` columns, the write succeeds, the header row comes first, and
every emitted line has exactly the 5 schema columns in order. -/
theorem print_output_no_extras (data : List Row)
    (h : ∀ r ∈ data, ∀ kv ∈ r, kv.1 = "Nome" ∨ kv.1 = "Email") :
    (print_output_file (curate data)).2 = none ∧
    (print_output_file (curate data)).1.head? = some fieldnames ∧
    ∀ line ∈ (print_output_file (curate data)).1, line.length = 5 := by
  have hw := writeRows_ok (curate_keys h)
  refine ⟨?_, ?_, ?_⟩
  · simp [print_output_file, hw]
  · simp [print_output_file]
  · intro line hline
    simp only [print_output_file, hw] at hline
    rcases List.mem_cons.mp hline with rfl | hline' 
    · rfl
    · obtain ⟨r, hmem, rfl⟩ := List.mem_map.mp hline' 
      rfl

/-- Witness for C3's amended claim at a clean two-column input. -/
theorem print_output_no_extras_witness :
    (print_output_file (curate [[("Nome", "Ana Lima"), ("Email", "ana@x.br")]])).2 =
      none ∧
    (print_output_file (curate
      [[("Nome", "Ana Lima"), ("Email", "ana@x.br")]])).1.head? = some fieldnames := by
  have h := print_output_no_extras [[("Nome", "Ana Lima"), ("Email", "ana@x.br")]]
    (by decide)
  exact ⟨h.1, h.2.1⟩

end SBLP
